import Mathlib

/-!
# Verification of `find_melt_line_crossings`
(`tutorials/laserbeamFoam/Test_MeltTrackID/TimeTemp/temperature_analysis.py`)

Shallow embedding of the threshold-crossing interval extractor over `ℚ`
(the Python floats are modelled as exact rationals, so linear interpolation
is exact).  The two parallel numpy arrays `time_data` / `temp_data` are
modelled as a single list of `(time, value)` pairs, which is how the caller
assembles them (appending to `timesteps` and `temperatures` in lockstep).
-/

attribute [local semireducible] Rat.add Rat.sub Rat.mul Rat.inv

/-- Direction tag of a crossing: the source uses the strings `"up"` / `"down"`. -/
inductive Direction where
  | up : Direction
  | down : Direction
deriving DecidableEq, Repr

/-- One entry of `time_above_melt_periods`: the source builds a dict with keys
`start_time`, `end_time`, `duration`, `spike_number`. -/
structure Period where
  start_time : ℚ
  end_time : ℚ
  duration : ℚ
  spike_number : ℕ
deriving DecidableEq, Repr

/-- Error taxonomy of the specification (§7).  The source never raises these;
they are declared to state the spec's error contract. -/
inductive AnalysisError where
  | insufficientData : AnalysisError
  | degenerateSegment : AnalysisError
deriving DecidableEq, Repr

/-- Sorting step `np.argsort(time_data)` followed by applying the permutation
to both arrays: sorting the `(time, value)` pairs by time ascending.  The tie
order among equal timestamps is left unspecified by the source (numpy's
default introsort, which carries no stability guarantee); the model fixes one
concrete sorting function. -/
def sortByTime (series : List (ℚ × ℚ)) : List (ℚ × ℚ) :=
  series.mergeSort (fun a b => decide (a.1 ≤ b.1))

/-- The resampling grid `np.linspace a b num`: `num` evenly spaced points
from `a` to `b` inclusive, `a + k * (b - a) / (num - 1)` for
`k = 0, …, num - 1`. -/
def linspace (a b : ℚ) (num : ℕ) : List ℚ :=
  (List.range num).map (fun k : ℕ => a + (k : ℚ) * ((b - a) / ((num - 1 : ℕ) : ℚ)))

/-- Segment lookup `np.searchsorted(xs, t)` with `side='left'`: for sorted
`xs`, the number of elements strictly below `t`. -/
def searchsortedL (xs : List ℚ) (t : ℚ) : ℕ :=
  xs.countP (fun x => decide (x < t))

/-- One point evaluation of `scipy.interpolate.interp1d(xs, ys,
kind='linear', fill_value='extrapolate')`: locate the bracketing segment
with `searchsorted` clipped to `[1, len - 1]`, then evaluate
`slope * (t - x_lo) + y_lo`. -/
def interpAt (xs ys : List ℚ) (t : ℚ) : ℚ :=
  let idx := min (max (searchsortedL xs t) 1) (xs.length - 1)
  let xl := xs.getD (idx - 1) 0
  let xh := xs.getD idx 0
  let yl := ys.getD (idx - 1) 0
  let yh := ys.getD idx 0
  (yh - yl) / (xh - xl) * (t - xl) + yl

/-- The body of one iteration of the detection loop (source lines 78–85):
given the bracketing resampled points `(t0, v0)`, `(t1, v1)` and the melt
temperature `m`, test the sign change of `diff = temp - m`, guard against
`diff[i+1] == diff[i]`, and emit the interpolated crossing time with its
direction. -/
def crossingStep (m t0 v0 t1 v1 : ℚ) : Option (ℚ × Direction) :=
  if (v0 - m ≤ 0 ∧ 0 < v1 - m) ∨ (0 < v0 - m ∧ v1 - m ≤ 0) then
    if v1 - m ≠ v0 - m then
      some (t0 + (m - v0) * (t1 - t0) / (v1 - v0),
            if v0 - m ≤ 0 ∧ 0 < v1 - m then Direction.up else Direction.down)
    else none
  else none

/-- The detection loop `for i in range(len(diff) - 1)` over the resampled
signal, scanning adjacent pairs left to right.  The resampled signal is the
list of `(time_interp[i], temp_interp[i])` pairs. -/
def detectCrossings (m : ℚ) : List (ℚ × ℚ) → List (ℚ × Direction)
  | p0 :: p1 :: rest =>
      match crossingStep m p0.1 p0.2 p1.1 p1.2 with
      | some c => c :: detectCrossings m (p1 :: rest)
      | none => detectCrossings m (p1 :: rest)
  | _ => []

/-- The pairing cursor loop (source lines 93–110): while `i < len - 1`,
emit a period whenever an `up` crossing is immediately followed by a `down`
crossing (advancing the cursor by 2), otherwise advance the cursor by 1.
`n` is `len(time_above_melt_periods)`, the number of periods emitted so
far. -/
def pairLoop : List (ℚ × Direction) → ℕ → List Period
  | c1 :: c2 :: rest, n =>
      if c1.2 = Direction.up ∧ c2.2 = Direction.down then
        { start_time := c1.1, end_time := c2.1,
          duration := c2.1 - c1.1, spike_number := n + 1 }
          :: pairLoop rest (n + 1)
      else
        pairLoop (c2 :: rest) n
  | _, _ => []

/-- The preprocessing and resampling stage (source lines 64–72): sort by
time, build the 10x oversampled `np.linspace` grid from the first to the
last sorted time, and evaluate the linear interpolant on it.  Returns the
resampled signal as `(time_interp[i], temp_interp[i])` pairs. -/
def resampledPairs (series : List (ℚ × ℚ)) : List (ℚ × ℚ) :=
  let sorted := sortByTime series
  let sorted_time := sorted.map Prod.fst
  let sorted_temp := sorted.map Prod.snd
  let time_interp :=
    linspace (sorted_time.getD 0 0) (sorted_time.getLast?.getD 0)
      (sorted_time.length * 10)
  time_interp.zip (time_interp.map (fun t => interpAt sorted_time sorted_temp t))

/-- The full pipeline `find_melt_line_crossings(time_data, temp_data,
melt_temp)` (source lines 52–115): returns `(crossing_times,
crossing_types, time_above_melt_periods)`.  With fewer than 2 samples the
source logs a message and returns three empty lists. -/
def find_melt_line_crossings (series : List (ℚ × ℚ)) (melt_temp : ℚ) :
    List ℚ × List Direction × List Period :=
  if series.length < 2 then ([], [], [])
  else
    let crossings := detectCrossings melt_temp (resampledPairs series)
    (crossings.map Prod.fst, crossings.map Prod.snd, pairLoop crossings 0)

/-- The source embedded in `Except`: `find_melt_line_crossings` raises no
exception on short input — it returns three empty lists — so every branch
is `Except.ok`. -/
def find_melt_line_crossingsE (series : List (ℚ × ℚ)) (melt_temp : ℚ) :
    Except AnalysisError (List ℚ × List Direction × List Period) :=
  if series.length < 2 then Except.ok ([], [], [])
  else Except.ok (find_melt_line_crossings series melt_temp)

/-- Modelled from the spec: the §4.1/§7 contract of `find_crossings` says a
series of fewer than 2 samples *fails with `InsufficientDataError`* (the
repository code has no such typed-error path; this definition follows the
spec's words, for comparison with the source's behaviour). -/
def find_crossings_specContract (series : List (ℚ × ℚ)) (melt_temp : ℚ) :
    Except AnalysisError (List ℚ × List Direction × List Period) :=
  if series.length < 2 then Except.error AnalysisError.insufficientData
  else Except.ok (find_melt_line_crossings series melt_temp)

/-- The flattened `[start_1, end_1, start_2, end_2, …]` endpoint list of a
period list; used to state that the pairing loop consumes each crossing at
most once and in order. -/
def periodEndpoints : List Period → List ℚ
  | [] => []
  | p :: ps => p.start_time :: p.end_time :: periodEndpoints ps

/-- The sign-change test fires exactly when one of the two strict/weak
disjuncts holds; the `diff[i+1] != diff[i]` guard never blocks it. -/
theorem crossingStep_isSome_iff (m t0 v0 t1 v1 : ℚ) :
    (crossingStep m t0 v0 t1 v1).isSome = true ↔
      ((v0 - m ≤ 0 ∧ 0 < v1 - m) ∨ (0 < v0 - m ∧ v1 - m ≤ 0)) := by
  unfold crossingStep
  by_cases h1 : (v0 - m ≤ 0 ∧ 0 < v1 - m) ∨ (0 < v0 - m ∧ v1 - m ≤ 0)
  · have h2 : v1 - m ≠ v0 - m := by
      rcases h1 with ⟨ha, hb⟩ | ⟨ha, hb⟩ <;> intro he <;> linarith
    rw [if_pos h1, if_pos h2]
    exact ⟨fun _ => h1, fun _ => rfl⟩
  · rw [if_neg h1]
    constructor
    · intro hx
      exact absurd hx (by simp)
    · intro hx
      exact absurd hx h1

/-- The crossing emitted for a bracketing pair is the interpolated time
`t0 + (m - v0) * (t1 - t0) / (v1 - v0)` with direction decided by the side
of `d0`. -/
theorem crossingStep_eq_some {m t0 v0 t1 v1 : ℚ} {c : ℚ × Direction}
    (h : crossingStep m t0 v0 t1 v1 = some c) :
    c = (t0 + (m - v0) * (t1 - t0) / (v1 - v0),
         if v0 - m ≤ 0 ∧ 0 < v1 - m then Direction.up else Direction.down) ∧
      ((v0 - m ≤ 0 ∧ 0 < v1 - m) ∨ (0 < v0 - m ∧ v1 - m ≤ 0)) := by
  unfold crossingStep at h
  split_ifs at h with h1 h2 h3
  · rw [if_pos h3]
    exact ⟨(Option.some.inj h).symm, h1⟩
  · rw [if_neg h3]
    exact ⟨(Option.some.inj h).symm, h1⟩

theorem crossingStep_dir_up {m t0 v0 t1 v1 : ℚ} {c : ℚ × Direction}
    (h : crossingStep m t0 v0 t1 v1 = some c) (hu : c.2 = Direction.up) :
    v0 - m ≤ 0 ∧ 0 < v1 - m := by
  unfold crossingStep at h
  split_ifs at h with h1 h2 h3
  · exact h3
  · rw [← Option.some.inj h] at hu
    simp at hu

theorem crossingStep_dir_down {m t0 v0 t1 v1 : ℚ} {c : ℚ × Direction}
    (h : crossingStep m t0 v0 t1 v1 = some c) (hu : c.2 = Direction.down) :
    0 < v0 - m ∧ v1 - m ≤ 0 := by
  unfold crossingStep at h
  split_ifs at h with h1 h2 h3
  · rw [← Option.some.inj h] at hu
    simp at hu
  · exact h1.resolve_left h3

/-- The direction of an emitted crossing is determined by which side of the
threshold the left bracketing value sits on. -/
theorem crossingStep_dir_of_sign {m t0 v0 t1 v1 : ℚ} {c : ℚ × Direction}
    (h : crossingStep m t0 v0 t1 v1 = some c) :
    (v0 - m ≤ 0 → c.2 = Direction.up) ∧ (0 < v0 - m → c.2 = Direction.down) := by
  unfold crossingStep at h
  split_ifs at h with h1 h2 h3
  · rw [← Option.some.inj h]
    constructor
    · intro _
      rfl
    · intro h0
      linarith [h3.1]
  · rw [← Option.some.inj h]
    have h0 : 0 < v0 - m := by
      rcases h1 with hd | ⟨ha, _⟩
      · exact absurd hd h3
      · exact ha
    constructor
    · intro hx
      linarith
    · intro _
      rfl

/-- When no crossing is emitted for a bracketing pair, the sign-change test
did not fire (the degenerate-segment guard is unreachable). -/
theorem crossingStep_none_sign {m t0 v0 t1 v1 : ℚ}
    (h : crossingStep m t0 v0 t1 v1 = none) :
    ¬((v0 - m ≤ 0 ∧ 0 < v1 - m) ∨ (0 < v0 - m ∧ v1 - m ≤ 0)) := by
  intro hc
  have := (crossingStep_isSome_iff m t0 v0 t1 v1).mpr hc
  rw [h] at this
  simp at this

/-- The interpolated crossing time lies between the two bracketing resampled
times. -/
theorem crossingStep_time_bounds {m t0 v0 t1 v1 : ℚ} {c : ℚ × Direction}
    (h : crossingStep m t0 v0 t1 v1 = some c) (ht : t0 ≤ t1) :
    t0 ≤ c.1 ∧ c.1 ≤ t1 := by
  obtain ⟨hc, hsign⟩ := crossingStep_eq_some h
  have hc1 : c.1 = t0 + (m - v0) * (t1 - t0) / (v1 - v0) := by rw [hc]
  rcases hsign with ⟨ha, hb⟩ | ⟨ha, hb⟩
  · have hA : 0 < v1 - v0 := by linarith
    have hq0 : 0 ≤ (m - v0) * (t1 - t0) / (v1 - v0) :=
      div_nonneg (mul_nonneg (by linarith) (by linarith)) hA.le
    have hq1 : (m - v0) * (t1 - t0) / (v1 - v0) ≤ t1 - t0 := by
      rw [div_le_iff₀ hA]
      calc (m - v0) * (t1 - t0) ≤ (v1 - v0) * (t1 - t0) :=
            mul_le_mul_of_nonneg_right (by linarith) (by linarith)
        _ = (t1 - t0) * (v1 - v0) := by ring
    constructor <;> rw [hc1] <;> linarith
  · have hA : 0 < v0 - v1 := by linarith
    have hrw : (m - v0) * (t1 - t0) / (v1 - v0) =
        (v0 - m) * (t1 - t0) / (v0 - v1) := by
      rw [div_eq_div_iff (by intro hz; rw [sub_eq_zero] at hz; linarith)
        (by intro hz; rw [sub_eq_zero] at hz; linarith)]
      ring
    have hq0 : 0 ≤ (v0 - m) * (t1 - t0) / (v0 - v1) :=
      div_nonneg (mul_nonneg (by linarith) (by linarith)) hA.le
    have hq1 : (v0 - m) * (t1 - t0) / (v0 - v1) ≤ t1 - t0 := by
      rw [div_le_iff₀ hA]
      calc (v0 - m) * (t1 - t0) ≤ (v0 - v1) * (t1 - t0) :=
            mul_le_mul_of_nonneg_right (by linarith) (by linarith)
        _ = (t1 - t0) * (v0 - v1) := by ring
    constructor <;> rw [hc1, hrw] <;> linarith

theorem detectCrossings_nil (m : ℚ) : detectCrossings m [] = [] := rfl

theorem detectCrossings_single (m : ℚ) (p : ℚ × ℚ) : detectCrossings m [p] = [] := rfl

theorem detectCrossings_cons_cons (m : ℚ) (p0 p1 : ℚ × ℚ) (rest : List (ℚ × ℚ)) :
    detectCrossings m (p0 :: p1 :: rest) =
      match crossingStep m p0.1 p0.2 p1.1 p1.2 with
      | some c => c :: detectCrossings m (p1 :: rest)
      | none => detectCrossings m (p1 :: rest) := rfl

/-- Every crossing in the detection output comes from one adjacent pair of
resampled points. -/
theorem detect_mem_decomp (m : ℚ) :
    ∀ (l : List (ℚ × ℚ)) (c : ℚ × Direction), c ∈ detectCrossings m l →
      ∃ l₁ p0 p1 l₂, l = l₁ ++ p0 :: p1 :: l₂ ∧
        crossingStep m p0.1 p0.2 p1.1 p1.2 = some c
  | [], c, h => absurd h (by simp [detectCrossings_nil])
  | [p], c, h => absurd h (by simp [detectCrossings_single])
  | p0 :: p1 :: rest, c, h => by
      rcases hstep : crossingStep m p0.1 p0.2 p1.1 p1.2 with _ | c0
      · simp only [detectCrossings_cons_cons, hstep] at h
        obtain ⟨l₁, q0, q1, l₂, heq, hq⟩ := detect_mem_decomp m (p1 :: rest) c h
        exact ⟨p0 :: l₁, q0, q1, l₂, by rw [heq]; rfl, hq⟩
      · simp only [detectCrossings_cons_cons, hstep] at h
        rcases List.mem_cons.mp h with rfl | h'
        · exact ⟨[], p0, p1, rest, rfl, hstep⟩
        · obtain ⟨l₁, q0, q1, l₂, heq, hq⟩ := detect_mem_decomp m (p1 :: rest) c h'
          exact ⟨p0 :: l₁, q0, q1, l₂, by rw [heq]; rfl, hq⟩

/-- For a time-sorted resampled signal whose times are all at least `b`,
every detected crossing time is at least `b`. -/
theorem detect_lb (m b : ℚ) :
    ∀ (l : List (ℚ × ℚ)), (∀ p ∈ l, b ≤ p.1) →
      List.Pairwise (fun p q : ℚ × ℚ => p.1 ≤ q.1) l →
      ∀ c ∈ detectCrossings m l, b ≤ c.1
  | [], _, _, c, h => absurd h (by simp [detectCrossings_nil])
  | [p], _, _, c, h => absurd h (by simp [detectCrossings_single])
  | p0 :: p1 :: rest, hb, hpw, c, h => by
      have hb' : ∀ p ∈ p1 :: rest, b ≤ p.1 :=
        fun p hp => hb p (List.mem_cons_of_mem _ hp)
      have hpw' : List.Pairwise (fun p q : ℚ × ℚ => p.1 ≤ q.1) (p1 :: rest) :=
        (List.pairwise_cons.mp hpw).2
      have ht01 : p0.1 ≤ p1.1 :=
        (List.pairwise_cons.mp hpw).1 p1 (List.mem_cons_self _ _)
      rcases hstep : crossingStep m p0.1 p0.2 p1.1 p1.2 with _ | c0
      · simp only [detectCrossings_cons_cons, hstep] at h
        exact detect_lb m b (p1 :: rest) hb' hpw' c h
      · simp only [detectCrossings_cons_cons, hstep] at h
        rcases List.mem_cons.mp h with rfl | h'
        · have hlo := (crossingStep_time_bounds hstep ht01).1
          have hb0 : b ≤ p0.1 := hb p0 (List.mem_cons_self _ _)
          linarith
        · exact detect_lb m b (p1 :: rest) hb' hpw' c h'

/-- Crossing times are emitted in non-decreasing order whenever the
resampled signal is scanned in non-decreasing time order. -/
theorem detect_sorted (m : ℚ) :
    ∀ (l : List (ℚ × ℚ)), List.Pairwise (fun p q : ℚ × ℚ => p.1 ≤ q.1) l →
      List.Pairwise (fun c c' : ℚ × Direction => c.1 ≤ c'.1) (detectCrossings m l)
  | [], _ => by simp [detectCrossings_nil]
  | [p], _ => by simp [detectCrossings_single]
  | p0 :: p1 :: rest, hpw => by
      have hpw' := (List.pairwise_cons.mp hpw).2
      have ht01 : p0.1 ≤ p1.1 :=
        (List.pairwise_cons.mp hpw).1 p1 (List.mem_cons_self _ _)
      have ih := detect_sorted m (p1 :: rest) hpw'
      rcases hstep : crossingStep m p0.1 p0.2 p1.1 p1.2 with _ | c0
      · simp only [detectCrossings_cons_cons, hstep]
        exact ih
      · simp only [detectCrossings_cons_cons, hstep]
        refine List.pairwise_cons.mpr ⟨?_, ih⟩
        intro c' hc'
        have hub : c0.1 ≤ p1.1 := (crossingStep_time_bounds hstep ht01).2
        have hlb : p1.1 ≤ c'.1 := by
          refine detect_lb m p1.1 (p1 :: rest) ?_ hpw' c' hc'
          intro p hp
          rcases List.mem_cons.mp hp with rfl | hp'
          · exact le_refl _
          · exact (List.pairwise_cons.mp hpw').1 p hp'
        linarith

/-- The first crossing found while scanning from a point on a given side of
the threshold has the direction that leaves that side. -/
theorem detect_head_dir (m : ℚ) :
    ∀ (l : List (ℚ × ℚ)) (p0 : ℚ × ℚ) (c : ℚ × Direction)
      (cs : List (ℚ × Direction)),
      detectCrossings m (p0 :: l) = c :: cs →
      (p0.2 - m ≤ 0 → c.2 = Direction.up) ∧ (0 < p0.2 - m → c.2 = Direction.down)
  | [], p0, c, cs, h => absurd h (by simp [detectCrossings_single])
  | p1 :: rest, p0, c, cs, h => by
      rcases hstep : crossingStep m p0.1 p0.2 p1.1 p1.2 with _ | c0
      · simp only [detectCrossings_cons_cons, hstep] at h
        have ih := detect_head_dir m rest p1 c cs h
        have hnone := crossingStep_none_sign hstep
        constructor
        · intro h0
          apply ih.1
          by_contra hpos
          push_neg at hpos
          exact hnone (Or.inl ⟨h0, hpos⟩)
        · intro h0
          apply ih.2
          by_contra hle
          push_neg at hle
          exact hnone (Or.inr ⟨h0, hle⟩)
      · simp only [detectCrossings_cons_cons, hstep] at h
        injection h with h1 h2
        subst h1
        exact crossingStep_dir_of_sign hstep

/-- Directions strictly alternate along the detected crossing list. -/
theorem detect_chain_ne (m : ℚ) :
    ∀ (l : List (ℚ × ℚ)),
      List.Chain' (fun c c' : ℚ × Direction => c.2 ≠ c'.2) (detectCrossings m l)
  | [] => by simp [detectCrossings_nil]
  | [p] => by simp [detectCrossings_single]
  | p0 :: p1 :: rest => by
      have ih := detect_chain_ne m (p1 :: rest)
      rcases hstep : crossingStep m p0.1 p0.2 p1.1 p1.2 with _ | c0
      · simpa only [detectCrossings_cons_cons, hstep] using ih
      · simp only [detectCrossings_cons_cons, hstep]
        refine List.chain'_cons'.mpr ⟨?_, ih⟩
        intro c' hc'
        cases hd : detectCrossings m (p1 :: rest) with
        | nil =>
            rw [hd] at hc'
            simp at hc'
        | cons b bs =>
            rw [hd] at hc'
            simp only [List.head?_cons, Option.mem_def, Option.some.injEq] at hc'
            subst hc'
            have hhead := detect_head_dir m rest p1 b bs hd
            cases hdir : c0.2 with
            | up =>
                have hup := crossingStep_dir_up hstep hdir
                rw [hhead.2 hup.2]
                simp
            | down =>
                have hdn := crossingStep_dir_down hstep hdir
                rw [hhead.1 hdn.2]
                simp

theorem pairLoop_nil (n : ℕ) : pairLoop [] n = [] := rfl

theorem pairLoop_single (c : ℚ × Direction) (n : ℕ) : pairLoop [c] n = [] := rfl

theorem pairLoop_cons_cons (c1 c2 : ℚ × Direction) (rest : List (ℚ × Direction))
    (n : ℕ) :
    pairLoop (c1 :: c2 :: rest) n =
      if c1.2 = Direction.up ∧ c2.2 = Direction.down then
        { start_time := c1.1, end_time := c2.1, duration := c2.1 - c1.1,
          spike_number := n + 1 } :: pairLoop rest (n + 1)
      else pairLoop (c2 :: rest) n := rfl

/-- Each emitted period consumes two crossings, so the pairing loop emits at
most half as many periods as there are crossings. -/
theorem pairLoop_length_le : ∀ (cs : List (ℚ × Direction)) (n : ℕ),
    2 * (pairLoop cs n).length ≤ cs.length
  | [], n => by simp [pairLoop_nil]
  | [c], n => by simp [pairLoop_single]
  | c1 :: c2 :: rest, n => by
      rw [pairLoop_cons_cons]
      split_ifs with hud
      · have ih := pairLoop_length_le rest (n + 1)
        simp only [List.length_cons]
        omega
      · have ih := pairLoop_length_le (c2 :: rest) n
        simp only [List.length_cons] at ih ⊢
        omega

/-- If every crossing time in the list is at least `b`, every emitted period
starts at or after `b`. -/
theorem pairLoop_lb (b : ℚ) :
    ∀ (cs : List (ℚ × Direction)) (n : ℕ), (∀ c ∈ cs, b ≤ c.1) →
      ∀ I ∈ pairLoop cs n, b ≤ I.start_time
  | [], n, hb, I, hI => absurd hI (by simp [pairLoop_nil])
  | [c], n, hb, I, hI => absurd hI (by simp [pairLoop_single])
  | c1 :: c2 :: rest, n, hb, I, hI => by
      rw [pairLoop_cons_cons] at hI
      split_ifs at hI with hud
      · rcases List.mem_cons.mp hI with rfl | hI'
        · exact hb c1 (List.mem_cons_self _ _)
        · refine pairLoop_lb b rest (n + 1) ?_ I hI'
          intro c hc
          exact hb c (List.mem_cons_of_mem _ (List.mem_cons_of_mem _ hc))
      · refine pairLoop_lb b (c2 :: rest) n ?_ I hI
        intro c hc
        exact hb c (List.mem_cons_of_mem _ hc)

/-- The flattened endpoint list of the emitted periods is a sublist of the
crossing times: no crossing is used by more than one period, and the
endpoints appear in scan order. -/
theorem pairLoop_endpoints_sublist :
    ∀ (cs : List (ℚ × Direction)) (n : ℕ),
      (periodEndpoints (pairLoop cs n)).Sublist (cs.map Prod.fst)
  | [], n => by simp [pairLoop_nil, periodEndpoints]
  | [c], n => by simp [pairLoop_single, periodEndpoints]
  | c1 :: c2 :: rest, n => by
      rw [pairLoop_cons_cons]
      split_ifs with hud
      · simp only [periodEndpoints, List.map_cons]
        exact ((pairLoop_endpoints_sublist rest (n + 1)).cons₂ _).cons₂ _
      · simp only [List.map_cons]
        exact List.Sublist.cons _ (pairLoop_endpoints_sublist (c2 :: rest) n)

/-- For time-sorted crossings, consecutive emitted periods do not overlap:
each period ends no later than the next one starts. -/
theorem pairLoop_chain :
    ∀ (cs : List (ℚ × Direction)) (n : ℕ),
      List.Pairwise (fun c c' : ℚ × Direction => c.1 ≤ c'.1) cs →
      List.Chain' (fun I J : Period => I.end_time ≤ J.start_time) (pairLoop cs n)
  | [], n, _ => by simp [pairLoop_nil]
  | [c], n, _ => by simp [pairLoop_single]
  | c1 :: c2 :: rest, n, hpw => by
      have hpw1 := (List.pairwise_cons.mp hpw).2
      have hpw2 := (List.pairwise_cons.mp hpw1).2
      rw [pairLoop_cons_cons]
      split_ifs with hud
      · refine List.chain'_cons'.mpr ⟨?_, pairLoop_chain rest (n + 1) hpw2⟩
        intro J hJ
        have hJmem : J ∈ pairLoop rest (n + 1) := List.mem_of_mem_head? hJ
        have hstart : c2.1 ≤ J.start_time := by
          refine pairLoop_lb c2.1 rest (n + 1) ?_ J hJmem
          intro c hc
          exact (List.pairwise_cons.mp hpw1).1 c hc
        exact hstart
      · exact pairLoop_chain (c2 :: rest) n hpw1

/-- The sorting stage produces pairs in non-decreasing time order. -/
theorem sortByTime_pairwise (series : List (ℚ × ℚ)) :
    List.Pairwise (fun p q : ℚ × ℚ => p.1 ≤ q.1) (sortByTime series) := by
  have h : (sortByTime series).Pairwise
      (fun a b : ℚ × ℚ => decide (a.1 ≤ b.1) = true) := by
    apply List.sorted_mergeSort
    · intro a b c hab hbc
      simp only [decide_eq_true_eq] at *
      exact le_trans hab hbc
    · intro a b
      simp only [Bool.or_eq_true, decide_eq_true_eq]
      exact le_total a.1 b.1
  exact h.imp (fun hab => of_decide_eq_true hab)

/-- In a time-sorted list the first element is no later than the last. -/
theorem head_le_getLast_of_pairwise :
    ∀ (l : List ℚ), List.Pairwise (fun a b : ℚ => a ≤ b) l →
      l.getD 0 0 ≤ (l.getLast?).getD 0
  | [], _ => le_refl 0
  | a :: tl, h => by
      have hne : a :: tl ≠ [] := List.cons_ne_nil a tl
      rw [List.getLast?_eq_getLast (a :: tl) hne]
      simp only [List.getD_cons_zero, Option.getD_some]
      have hmem := List.getLast_mem hne
      rcases List.mem_cons.mp hmem with heq | hmem'
      · exact le_of_eq heq.symm
      · exact (List.pairwise_cons.mp h).1 _ hmem'

/-- A linspace grid with non-decreasing endpoints is non-decreasing. -/
theorem linspace_pairwise (a b : ℚ) (num : ℕ) (hab : a ≤ b) :
    List.Pairwise (fun x y : ℚ => x ≤ y) (linspace a b num) := by
  unfold linspace
  have hs : (0 : ℚ) ≤ (b - a) / ((num - 1 : ℕ) : ℚ) :=
    div_nonneg (by linarith) (Nat.cast_nonneg _)
  refine List.Pairwise.map
    (fun k : ℕ => a + (k : ℚ) * ((b - a) / ((num - 1 : ℕ) : ℚ)))
    ?_ (List.pairwise_lt_range num)
  intro i j hij
  have hijq : (i : ℚ) ≤ (j : ℚ) := by exact_mod_cast Nat.le_of_lt hij
  have := mul_le_mul_of_nonneg_right hijq hs
  linarith

/-- Zipping a time-sorted list with values keeps the first components
sorted. -/
theorem zip_pairwise_fst {ts vs : List ℚ} (hlen : ts.length ≤ vs.length)
    (h : List.Pairwise (fun x y : ℚ => x ≤ y) ts) :
    List.Pairwise (fun p q : ℚ × ℚ => p.1 ≤ q.1) (ts.zip vs) := by
  have hmap := List.map_fst_zip ts vs hlen
  rw [← hmap] at h
  exact List.pairwise_map.mp h

/-- The resampled signal is scanned in non-decreasing time order. -/
theorem resampledPairs_pairwise (series : List (ℚ × ℚ)) :
    List.Pairwise (fun p q : ℚ × ℚ => p.1 ≤ q.1) (resampledPairs series) := by
  unfold resampledPairs
  dsimp only
  refine zip_pairwise_fst (by simp) ?_
  refine linspace_pairwise _ _ _ ?_
  refine head_le_getLast_of_pairwise _ ?_
  exact List.pairwise_map.mpr (sortByTime_pairwise series)

/-- C1: for every adjacent pair of resampled points with differences
`d0 = value0 - threshold` and `d1 = value1 - threshold`, the detection loop
records a crossing exactly when `d0 <= 0 and d1 > 0` (labelled `up`) or
`d0 > 0 and d1 <= 0` (labelled `down`); consequently every returned
crossing comes from a bracketing pair satisfying this sign-change
condition. -/
theorem c1_sign_change_detection :
    (∀ m t0 v0 t1 v1 : ℚ,
      ((crossingStep m t0 v0 t1 v1).isSome = true ↔
        ((v0 - m ≤ 0 ∧ 0 < v1 - m) ∨ (0 < v0 - m ∧ v1 - m ≤ 0))) ∧
      (∀ t : ℚ, crossingStep m t0 v0 t1 v1 = some (t, Direction.up) →
        v0 - m ≤ 0 ∧ 0 < v1 - m) ∧
      (∀ t : ℚ, crossingStep m t0 v0 t1 v1 = some (t, Direction.down) →
        0 < v0 - m ∧ v1 - m ≤ 0)) ∧
    (∀ (m : ℚ) (l : List (ℚ × ℚ)) (c : ℚ × Direction), c ∈ detectCrossings m l →
      ∃ l₁ p0 p1 l₂, l = l₁ ++ p0 :: p1 :: l₂ ∧
        crossingStep m p0.1 p0.2 p1.1 p1.2 = some c ∧
        ((p0.2 - m ≤ 0 ∧ 0 < p1.2 - m) ∨ (0 < p0.2 - m ∧ p1.2 - m ≤ 0))) := by
  refine ⟨fun m t0 v0 t1 v1 =>
    ⟨crossingStep_isSome_iff m t0 v0 t1 v1, ?_, ?_⟩, ?_⟩
  · intro t ht
    exact crossingStep_dir_up ht rfl
  · intro t ht
    exact crossingStep_dir_down ht rfl
  · intro m l c hc
    obtain ⟨l₁, p0, p1, l₂, heq, hstep⟩ := detect_mem_decomp m l c hc
    exact ⟨l₁, p0, p1, l₂, heq, hstep, (crossingStep_eq_some hstep).2⟩

/-- C2: the pairing loop emits an interval exactly when the crossing at the
cursor is `up` and the next is `down` (using their times as start/end,
duration = end - start, sequence number = emitted + 1, cursor advanced by
2), otherwise advances the cursor by 1; on `[up@1, down@2, up@3, down@4]`
it yields exactly the intervals `(1,2)` and `(3,4)`, and on
`[up@1, up@2, down@3]` exactly the interval `(2,3)`. -/
theorem c2_greedy_pairing :
    (∀ (c1 c2 : ℚ × Direction) (rest : List (ℚ × Direction)) (n : ℕ),
      (c1.2 = Direction.up ∧ c2.2 = Direction.down →
        pairLoop (c1 :: c2 :: rest) n =
          { start_time := c1.1, end_time := c2.1, duration := c2.1 - c1.1,
            spike_number := n + 1 } :: pairLoop rest (n + 1)) ∧
      (¬(c1.2 = Direction.up ∧ c2.2 = Direction.down) →
        pairLoop (c1 :: c2 :: rest) n = pairLoop (c2 :: rest) n)) ∧
    pairLoop [((1 : ℚ), Direction.up), (2, Direction.down), (3, Direction.up),
        (4, Direction.down)] 0 =
      [{ start_time := 1, end_time := 2, duration := 1, spike_number := 1 },
       { start_time := 3, end_time := 4, duration := 1, spike_number := 2 }] ∧
    pairLoop [((1 : ℚ), Direction.up), (2, Direction.up), (3, Direction.down)] 0 =
      [{ start_time := 2, end_time := 3, duration := 1, spike_number := 1 }] := by
  refine ⟨fun c1 c2 rest n => ⟨?_, ?_⟩, by decide, by decide⟩
  · intro hud
    rw [pairLoop_cons_cons, if_pos hud]
  · intro hud
    rw [pairLoop_cons_cons, if_neg hud]

/-- C3 counterexample: on the one-sample series `[(0, 0)]` the source
returns successfully with three empty lists, while the spec's contract
demands an `InsufficientDataError`; the two outcomes differ. -/
theorem c3_counterexample :
    find_melt_line_crossingsE [((0 : ℚ), (0 : ℚ))] 1000 = Except.ok ([], [], []) ∧
    find_crossings_specContract [((0 : ℚ), (0 : ℚ))] 1000 =
      Except.error AnalysisError.insufficientData ∧
    find_melt_line_crossingsE [((0 : ℚ), (0 : ℚ))] 1000 ≠
      find_crossings_specContract [((0 : ℚ), (0 : ℚ))] 1000 := by
  refine ⟨rfl, rfl, ?_⟩
  intro h
  rw [show find_melt_line_crossingsE [((0 : ℚ), (0 : ℚ))] 1000 =
        Except.ok ([], [], []) from rfl,
      show find_crossings_specContract [((0 : ℚ), (0 : ℚ))] 1000 =
        Except.error AnalysisError.insufficientData from rfl] at h
  exact Except.noConfusion h

/-- C3 (amended): for every series with fewer than 2 samples and every
threshold, `find_melt_line_crossings` does not fail with a typed error: it
returns successfully with empty crossings and empty intervals. -/
theorem c3_short_input_returns_empty (series : List (ℚ × ℚ)) (m : ℚ)
    (h : series.length < 2) :
    find_melt_line_crossingsE series m = Except.ok ([], [], []) := by
  unfold find_melt_line_crossingsE
  rw [if_pos h]

theorem c3_short_input_returns_empty_witness :
    ([((0 : ℚ), (0 : ℚ))] : List (ℚ × ℚ)).length < 2 ∧
    find_melt_line_crossingsE [((0 : ℚ), (0 : ℚ))] 2000 = Except.ok ([], [], []) :=
  ⟨by decide, c3_short_input_returns_empty [((0 : ℚ), (0 : ℚ))] 2000 (by decide)⟩

/-- C4: for every input series with at least 2 samples and every threshold,
the crossing times returned by `find_melt_line_crossings` are
non-decreasing. -/
theorem c4_crossing_times_sorted (series : List (ℚ × ℚ)) (m : ℚ)
    (h : 2 ≤ series.length) :
    List.Pairwise (fun t t' : ℚ => t ≤ t') (find_melt_line_crossings series m).1 := by
  unfold find_melt_line_crossings
  rw [if_neg (by omega)]
  dsimp only
  exact List.pairwise_map.mpr (detect_sorted m _ (resampledPairs_pairwise series))

theorem c4_crossing_times_sorted_witness :
    2 ≤ ([((0 : ℚ), (0 : ℚ)), (1, 2000), (2, 0)] : List (ℚ × ℚ)).length ∧
    List.Pairwise (fun t t' : ℚ => t ≤ t')
      (find_melt_line_crossings [((0 : ℚ), (0 : ℚ)), (1, 2000), (2, 0)] 1000).1 :=
  ⟨by decide,
   c4_crossing_times_sorted [((0 : ℚ), (0 : ℚ)), (1, 2000), (2, 0)] 1000 (by decide)⟩

/-- C5: on the series `[(0,0), (1,2000), (2,0)]` with threshold `1000` the
full pipeline returns exactly the crossings `up@0.5` and `down@1.5` and
exactly one interval with start `0.5`, end `1.5`, duration `1`, sequence
number `1`. -/
theorem c5_single_spike_round_trip :
    find_melt_line_crossings [((0 : ℚ), (0 : ℚ)), (1, 2000), (2, 0)] 1000 =
      ([1/2, 3/2], [Direction.up, Direction.down],
        [{ start_time := 1/2, end_time := 3/2, duration := 1,
           spike_number := 1 }]) := by
  have hs : sortByTime [((0 : ℚ), (0 : ℚ)), (1, 2000), (2, 0)] =
      [((0 : ℚ), (0 : ℚ)), (1, 2000), (2, 0)] :=
    List.mergeSort_of_sorted (by decide)
  unfold find_melt_line_crossings resampledPairs
  rw [if_neg (by decide)]
  dsimp only
  rw [hs]
  decide

/-- C7: the `diff[i+1] != diff[i]` division guard is unreachable: whenever
the sign-change test fires for a bracketing pair, the two values differ and
the crossing is in fact emitted (never skipped by the guard). -/
theorem c7_degenerate_guard_unreachable (m t0 v0 t1 v1 : ℚ)
    (h : (v0 - m ≤ 0 ∧ 0 < v1 - m) ∨ (0 < v0 - m ∧ v1 - m ≤ 0)) :
    v1 ≠ v0 ∧ (crossingStep m t0 v0 t1 v1).isSome = true := by
  constructor
  · intro he
    rcases h with ⟨ha, hb⟩ | ⟨ha, hb⟩ <;> rw [he] at hb <;> linarith
  · exact (crossingStep_isSome_iff m t0 v0 t1 v1).mpr h

theorem c7_degenerate_guard_unreachable_witness :
    (((0 : ℚ) - 1000 ≤ 0 ∧ 0 < (2000 : ℚ) - 1000) ∨
      (0 < (0 : ℚ) - 1000 ∧ (2000 : ℚ) - 1000 ≤ 0)) ∧
    ((2000 : ℚ) ≠ 0 ∧ (crossingStep 1000 0 0 1 2000).isSome = true) :=
  ⟨by decide, c7_degenerate_guard_unreachable 1000 0 0 1 2000 (by decide)⟩

/-- C8: the pipeline is a total function — it always returns a result for
finite input — and the pairing cursor loop is bounded: it emits at most half
as many intervals as there are crossings. -/
theorem c8_terminates_bounded :
    (∀ (series : List (ℚ × ℚ)) (m : ℚ),
      ∃ out : List ℚ × List Direction × List Period,
        find_melt_line_crossings series m = out ∧
          2 * out.2.2.length ≤ out.1.length) ∧
    (∀ (cs : List (ℚ × Direction)) (n : ℕ),
      2 * (pairLoop cs n).length ≤ cs.length) := by
  constructor
  · intro series m
    refine ⟨find_melt_line_crossings series m, rfl, ?_⟩
    unfold find_melt_line_crossings
    split_ifs with h
    · simp
    · dsimp only
      have hb := pairLoop_length_le (detectCrossings m (resampledPairs series)) 0
      simpa using hb
  · exact pairLoop_length_le

/-- C9: the directions in the crossing list produced by
`find_melt_line_crossings` strictly alternate: no two consecutive crossings
share a direction. -/
theorem c9_directions_alternate (series : List (ℚ × ℚ)) (m : ℚ) :
    List.Chain' (fun d d' : Direction => d ≠ d')
      (find_melt_line_crossings series m).2.1 := by
  unfold find_melt_line_crossings
  split_ifs with h
  · simp
  · dsimp only
    exact (List.chain'_map _).mpr (detect_chain_ne m (resampledPairs series))

/-- C10: consecutive intervals do not overlap (each ends no later than the
next starts), and no crossing is used by more than one interval: the
flattened interval endpoints form a sublist of the crossing times. -/
theorem c10_intervals_disjoint_ordered (series : List (ℚ × ℚ)) (m : ℚ) :
    List.Chain' (fun I J : Period => I.end_time ≤ J.start_time)
      (find_melt_line_crossings series m).2.2 ∧
    (periodEndpoints (find_melt_line_crossings series m).2.2).Sublist
      (find_melt_line_crossings series m).1 := by
  unfold find_melt_line_crossings
  split_ifs with h
  · constructor
    · simp
    · simp [periodEndpoints]
  · dsimp only
    constructor
    · exact pairLoop_chain _ 0 (detect_sorted m _ (resampledPairs_pairwise series))
    · exact pairLoop_endpoints_sublist _ 0
